import Mathlib

set_option maxHeartbeats 1600000

/-!
Verification development for the open-exa repository (Go): shallow embedding
of the hybrid search fusion (internal/indexer), the retriever, the crawler's
frontier/visited-set logic, the per-domain rate limiter, the robots.txt cache
and the URL normalizer, with theorems settling the specification's claims.

Machine floats (Go float32/float64 scores and rates) are modelled as exact
rationals, Go strings as Lean strings (byte slicing on ASCII prefixes agrees
with character slicing), and Go maps used as ordered-irrelevant key/value
stores as association lists in insertion order.
-/

/-- SearchResult of internal/indexer: DocumentID, ChunkID, Score, Text.  The
Metadata map is opaque to every claim and is omitted; Score (float32 in Go)
is an exact rational. -/
structure SearchResult where
  documentID : String
  chunkID : String
  score : ℚ
  text : String
  deriving DecidableEq, Repr

/-- One step of combineResults' first pass (vector results): if the chunkID is
already present the stored score is replaced by existing*0.3 + incoming*0.7,
else the result is inserted with its score weighted by 0.7.  The Go map
keyed by ChunkID is an association list in insertion order. -/
def upsertVector (m : List SearchResult) (r : SearchResult) : List SearchResult :=
  if m.any (fun x => x.chunkID == r.chunkID) then
    m.map (fun x =>
      if x.chunkID == r.chunkID then { x with score := x.score * 0.3 + r.score * 0.7 } else x)
  else
    m ++ [{ r with score := r.score * 0.7 }]

/-- One step of combineResults' second pass (BM25 results): if the chunkID is
already present the stored score is replaced by existing*0.7 + incoming*0.3,
else the result is inserted with its score weighted by 0.3. -/
def upsertBM25 (m : List SearchResult) (r : SearchResult) : List SearchResult :=
  if m.any (fun x => x.chunkID == r.chunkID) then
    m.map (fun x =>
      if x.chunkID == r.chunkID then { x with score := x.score * 0.7 + r.score * 0.3 } else x)
  else
    m ++ [{ r with score := r.score * 0.3 }]

/-- Contents of combineResults' resultMap after both passes: the vector pass
runs first over an empty map, then the BM25 pass. -/
def combinedMap (vectorResults bm25Results : List SearchResult) : List SearchResult :=
  bm25Results.foldl upsertBM25 (vectorResults.foldl upsertVector [])

/-- Inner loop of combineResults' selection sort, started at element x: walking
the tail, the current element and a later element are swapped whenever the
current score is smaller; returns the element left at the outer position
(the maximum) and the remaining list in its post-swap order. -/
def swapScan (x : SearchResult) : List SearchResult → SearchResult × List SearchResult
  | [] => (x, [])
  | y :: ys =>
    if x.score < y.score then
      let p := swapScan y ys
      (p.1, x :: p.2)
    else
      let p := swapScan x ys
      (p.1, y :: p.2)

theorem swapScan_snd_length (x : SearchResult) (l : List SearchResult) :
    ((swapScan x l).2).length = l.length := by
  induction l generalizing x with
  | nil => rfl
  | cons y ys ih =>
    by_cases h : x.score < y.score <;> simp [swapScan, h, ih]

/-- Outer loop of combineResults' in-place double-loop sort (descending by
score): each outer step runs the inner swap scan and fixes the maximum at
the front. -/
def sortByScoreDesc : List SearchResult → List SearchResult
  | [] => []
  | x :: xs => (swapScan x xs).1 :: sortByScoreDesc (swapScan x xs).2
termination_by l => l.length
decreasing_by simp [swapScan_snd_length]

/-- combineResults of internal/indexer: fuse the two backend result lists into
the chunkID-keyed map (vector pass first, weights 0.7/0.3), sort descending
by fused score, and truncate to limit. -/
def combineResults (vectorResults bm25Results : List SearchResult) (limit : Nat) :
    List SearchResult :=
  let sorted := sortByScoreDesc (combinedMap vectorResults bm25Results)
  if limit < sorted.length then sorted.take limit else sorted

example :
    combinedMap [⟨"d", "c", 0.9, "t"⟩] [⟨"d", "c", 0.6, "t"⟩] =
      [⟨"d", "c", 0.621, "t"⟩] := by
  simp [combinedMap, upsertVector, upsertBM25]
  norm_num

example :
    combineResults [⟨"d", "a", 0.9, "t"⟩] [⟨"e", "b", 0.6, "s"⟩] 5 =
      [⟨"d", "a", 0.63, "t"⟩, ⟨"e", "b", 0.18, "s"⟩] := by
  simp +decide [combineResults, combinedMap, upsertVector, upsertBM25]
  norm_num [sortByScoreDesc, swapScan]

theorem swapScan_fst_ge (x : SearchResult) (l : List SearchResult) :
    x.score ≤ (swapScan x l).1.score := by
  induction l generalizing x with
  | nil => exact le_refl _
  | cons y ys ih =>
    by_cases h : x.score < y.score
    · simp only [swapScan, if_pos h]
      exact le_of_lt (lt_of_lt_of_le h (ih y))
    · simp only [swapScan, if_neg h]
      exact ih x

theorem swapScan_ge_snd (x : SearchResult) (l : List SearchResult) :
    ∀ z ∈ (swapScan x l).2, z.score ≤ (swapScan x l).1.score := by
  induction l generalizing x with
  | nil => intro z hz; simp [swapScan] at hz
  | cons y ys ih =>
    intro z hz
    by_cases h : x.score < y.score
    · simp only [swapScan, if_pos h] at hz ⊢
      rcases List.mem_cons.mp hz with rfl | hz
      · exact le_of_lt (lt_of_lt_of_le h (swapScan_fst_ge y ys))
      · exact ih y z hz
    · simp only [swapScan, if_neg h] at hz ⊢
      rcases List.mem_cons.mp hz with rfl | hz
      · exact le_trans (le_of_not_lt h) (swapScan_fst_ge x ys)
      · exact ih x z hz

theorem swapScan_perm (x : SearchResult) (l : List SearchResult) :
    List.Perm ((swapScan x l).1 :: (swapScan x l).2) (x :: l) := by
  induction l generalizing x with
  | nil => exact List.Perm.refl _
  | cons y ys ih =>
    by_cases h : x.score < y.score
    · simp only [swapScan, if_pos h]
      exact (List.Perm.swap x _ _).trans ((ih y).cons x)
    · simp only [swapScan, if_neg h]
      exact ((List.Perm.swap y _ _).trans ((ih x).cons y)).trans (List.Perm.swap x y ys)

theorem sortByScoreDesc_perm (l : List SearchResult) : List.Perm (sortByScoreDesc l) l := by
  induction l using sortByScoreDesc.induct with
  | case1 => rw [sortByScoreDesc]
  | case2 x xs ih =>
    rw [sortByScoreDesc]
    exact (ih.cons _).trans (swapScan_perm x xs)

theorem sortByScoreDesc_sorted (l : List SearchResult) :
    (sortByScoreDesc l).Pairwise (fun a c => c.score ≤ a.score) := by
  induction l using sortByScoreDesc.induct with
  | case1 => rw [sortByScoreDesc]; exact List.Pairwise.nil
  | case2 x xs ih =>
    rw [sortByScoreDesc]
    refine List.pairwise_cons.mpr ⟨?_, ih⟩
    intro z hz
    exact swapScan_ge_snd x xs z ((sortByScoreDesc_perm _).mem_iff.mp hz)

/-- Vector-pass fold over an accumulator none of whose keys occurs among the
incoming chunkIDs: with chunkIDs pairwise distinct, every vector result is
appended with its score weighted by 0.7. -/
theorem foldl_upsertVector_fresh (v : List SearchResult) :
    ∀ m : List SearchResult, (∀ r ∈ v, ∀ x ∈ m, x.chunkID ≠ r.chunkID) →
      (v.map (fun r => r.chunkID)).Nodup →
      v.foldl upsertVector m = m ++ v.map (fun r => { r with score := r.score * 0.7 }) := by
  induction v with
  | nil => intro m _ _; simp
  | cons r v' ih =>
    intro m hm hnd
    have hany : (m.any (fun x => x.chunkID == r.chunkID)) = false := by
      simp only [List.any_eq_false, beq_iff_eq]
      intro x hx
      exact hm r (List.mem_cons_self r v') x hx
    have step : upsertVector m r = m ++ [{ r with score := r.score * 0.7 }] := by
      simp [upsertVector, hany]
    have hfresh : ∀ r' ∈ v', ∀ x ∈ m ++ [{ r with score := r.score * 0.7 }],
        x.chunkID ≠ r'.chunkID := by
      intro r' hr' x hx
      rcases List.mem_append.mp hx with hx | hx
      · exact hm r' (List.mem_cons_of_mem _ hr') x hx
      · have hx' : x = { r with score := r.score * 0.7 } := by simpa using hx
        subst hx'
        simp only [List.map_cons, List.nodup_cons] at hnd
        intro hcontra
        exact hnd.1 (List.mem_map.mpr ⟨r', hr', hcontra.symm⟩)
    have hnd' : (v'.map (fun r => r.chunkID)).Nodup := by
      simpa using (List.nodup_cons.mp (by simpa using hnd)).2
    have ihe := ih (m ++ [{ r with score := r.score * 0.7 }]) hfresh hnd'
    rw [List.foldl_cons, step, ihe]
    simp

/-- BM25-pass analogue of foldl_upsertVector_fresh, with weight 0.3. -/
theorem foldl_upsertBM25_fresh (b : List SearchResult) :
    ∀ m : List SearchResult, (∀ r ∈ b, ∀ x ∈ m, x.chunkID ≠ r.chunkID) →
      (b.map (fun r => r.chunkID)).Nodup →
      b.foldl upsertBM25 m = m ++ b.map (fun r => { r with score := r.score * 0.3 }) := by
  induction b with
  | nil => intro m _ _; simp
  | cons r b' ih =>
    intro m hm hnd
    have hany : (m.any (fun x => x.chunkID == r.chunkID)) = false := by
      simp only [List.any_eq_false, beq_iff_eq]
      intro x hx
      exact hm r (List.mem_cons_self r b') x hx
    have step : upsertBM25 m r = m ++ [{ r with score := r.score * 0.3 }] := by
      simp [upsertBM25, hany]
    have hfresh : ∀ r' ∈ b', ∀ x ∈ m ++ [{ r with score := r.score * 0.3 }],
        x.chunkID ≠ r'.chunkID := by
      intro r' hr' x hx
      rcases List.mem_append.mp hx with hx | hx
      · exact hm r' (List.mem_cons_of_mem _ hr') x hx
      · have hx' : x = { r with score := r.score * 0.3 } := by simpa using hx
        subst hx'
        simp only [List.map_cons, List.nodup_cons] at hnd
        intro hcontra
        exact hnd.1 (List.mem_map.mpr ⟨r', hr', hcontra.symm⟩)
    have hnd' : (b'.map (fun r => r.chunkID)).Nodup := by
      simpa using (List.nodup_cons.mp (by simpa using hnd)).2
    have ihe := ih (m ++ [{ r with score := r.score * 0.3 }]) hfresh hnd'
    rw [List.foldl_cons, step, ihe]
    simp

theorem combineResults_eq (v b : List SearchResult) (limit : Nat) :
    combineResults v b limit =
      if limit < (sortByScoreDesc (combinedMap v b)).length then
        (sortByScoreDesc (combinedMap v b)).take limit
      else sortByScoreDesc (combinedMap v b) := rfl

/-- C1: a chunkID returned by both backends (raw vector score v merged first,
raw lexical score b) ends with the fused score
existing*otherWeight + incoming*ownWeight, where existing = v*0.7 is the
score recorded by the vector pass's first-seen insertion, otherWeight = 0.7
and ownWeight = 0.3: fused = (v*0.7)*0.7 + b*0.3. -/
theorem combineResults_both_backends_blend (r1 r2 : SearchResult)
    (h : r2.chunkID = r1.chunkID) :
    combinedMap [r1] [r2] =
      [{ r1 with score := r1.score * 0.7 * 0.7 + r2.score * 0.3 }] := by
  simp [combinedMap, upsertVector, upsertBM25, h]

theorem combineResults_both_backends_blend_witness :
    combinedMap [⟨"doc", "ck", 0.9, "txt"⟩] [⟨"doc2", "ck", 0.6, "txt2"⟩] =
      [⟨"doc", "ck", 0.9 * 0.7 * 0.7 + 0.6 * 0.3, "txt"⟩] ∧
    (0.9 * 0.7 * 0.7 + 0.6 * 0.3 : ℚ) = 0.621 :=
  ⟨combineResults_both_backends_blend ⟨"doc", "ck", 0.9, "txt"⟩ ⟨"doc2", "ck", 0.6, "txt2"⟩ rfl,
    by norm_num⟩

/-- C2: for every pair of backend result lists the fused output is sorted by
descending fused score and has at most limit entries; and for backend lists
with disjoint (and per-list distinct) chunkID sets the fused map is exactly
the vector results weighted by 0.7 followed by the BM25 results weighted by
0.3, so every input result appears pre-truncation with its backend's weight
applied. -/
theorem combineResults_sorted_limit_disjoint (v b : List SearchResult) (limit : Nat) :
    (combineResults v b limit).Pairwise (fun a c => c.score ≤ a.score) ∧
      (combineResults v b limit).length ≤ limit ∧
      ((v.map (fun r => r.chunkID)).Nodup → (b.map (fun r => r.chunkID)).Nodup →
        (∀ x ∈ v, ∀ y ∈ b, x.chunkID ≠ y.chunkID) →
        combinedMap v b =
          v.map (fun r => { r with score := r.score * 0.7 }) ++
            b.map (fun r => { r with score := r.score * 0.3 }) ∧
          (∀ x ∈ v, { x with score := x.score * 0.7 } ∈ combinedMap v b) ∧
          (∀ y ∈ b, { y with score := y.score * 0.3 } ∈ combinedMap v b)) := by
  refine ⟨?_, ?_, ?_⟩
  · rw [combineResults_eq]
    by_cases hlen : limit < (sortByScoreDesc (combinedMap v b)).length
    · rw [if_pos hlen]
      exact (sortByScoreDesc_sorted _).sublist (List.take_sublist _ _)
    · rw [if_neg hlen]
      exact sortByScoreDesc_sorted _
  · rw [combineResults_eq]
    by_cases hlen : limit < (sortByScoreDesc (combinedMap v b)).length
    · rw [if_pos hlen]
      simp [List.length_take]
    · rw [if_neg hlen]
      exact Nat.le_of_not_lt hlen
  · intro hv hb hd
    have hpass1 : v.foldl upsertVector [] =
        v.map (fun r => { r with score := r.score * 0.7 }) := by
      have h0 := foldl_upsertVector_fresh v [] (by intro r _ x hx; simp at hx) hv
      simpa using h0
    have hfused : combinedMap v b =
        v.map (fun r => { r with score := r.score * 0.7 }) ++
          b.map (fun r => { r with score := r.score * 0.3 }) := by
      have h1 : combinedMap v b = b.foldl upsertBM25 (v.foldl upsertVector []) := rfl
      rw [h1, hpass1]
      exact foldl_upsertBM25_fresh b _
        (by
          intro r hr x hx
          rcases List.mem_map.mp hx with ⟨x0, hx0, rfl⟩
          simpa using hd x0 hx0 r hr) hb
    refine ⟨hfused, ?_, ?_⟩
    · intro x hx
      rw [hfused]
      exact List.mem_append_left _ (List.mem_map_of_mem _ hx)
    · intro y hy
      rw [hfused]
      exact List.mem_append_right _ (List.mem_map_of_mem _ hy)

theorem combineResults_sorted_limit_disjoint_witness :
    (combineResults [⟨"d1", "a", 0.9, "t1"⟩] [⟨"d2", "b", 0.6, "t2"⟩] 1).Pairwise
        (fun a c => c.score ≤ a.score) ∧
      (combineResults [⟨"d1", "a", 0.9, "t1"⟩] [⟨"d2", "b", 0.6, "t2"⟩] 1).length ≤ 1 ∧
      ((([⟨"d1", "a", 0.9, "t1"⟩] : List SearchResult).map (fun r => r.chunkID)).Nodup →
        (([⟨"d2", "b", 0.6, "t2"⟩] : List SearchResult).map (fun r => r.chunkID)).Nodup →
        (∀ x ∈ [(⟨"d1", "a", 0.9, "t1"⟩ : SearchResult)],
          ∀ y ∈ [(⟨"d2", "b", 0.6, "t2"⟩ : SearchResult)], x.chunkID ≠ y.chunkID) →
        combinedMap [⟨"d1", "a", 0.9, "t1"⟩] [⟨"d2", "b", 0.6, "t2"⟩] =
          ([⟨"d1", "a", 0.9, "t1"⟩] : List SearchResult).map
              (fun r => { r with score := r.score * 0.7 }) ++
            ([⟨"d2", "b", 0.6, "t2"⟩] : List SearchResult).map
              (fun r => { r with score := r.score * 0.3 }) ∧
          (∀ x ∈ [(⟨"d1", "a", 0.9, "t1"⟩ : SearchResult)],
            { x with score := x.score * 0.7 } ∈
              combinedMap [⟨"d1", "a", 0.9, "t1"⟩] [⟨"d2", "b", 0.6, "t2"⟩]) ∧
          (∀ y ∈ [(⟨"d2", "b", 0.6, "t2"⟩ : SearchResult)],
            { y with score := y.score * 0.3 } ∈
              combinedMap [⟨"d1", "a", 0.9, "t1"⟩] [⟨"d2", "b", 0.6, "t2"⟩])) :=
  combineResults_sorted_limit_disjoint [⟨"d1", "a", 0.9, "t1"⟩] [⟨"d2", "b", 0.6, "t2"⟩] 1

/-- Retrieve of internal/retriever: the hybrid search is asked for limit*2
candidates; on success an optional reranker is started in a detached
background task whose outcome is discarded (kept here only as a dead let
binding), and the results are truncated to limit. -/
def retrieveModel (search : String → Nat → Except String (List SearchResult))
    (reranker : Option (String → List SearchResult → Except String (List SearchResult)))
    (query : String) (limit : Nat) : Except String (List SearchResult) :=
  match search query (limit * 2) with
  | Except.error e => Except.error ("failed to search index: " ++ e)
  | Except.ok results =>
    let _asyncRerankOutcome := reranker.map (fun f => f query results)
    Except.ok (if limit < results.length then results.take limit else results)

/-- C5: Retrieve is insensitive to the configured reranker and to whatever it
returns or whether it fails: for any two reranker configurations the result
is identical, and it always equals the hybrid search result for 2*limit
candidates truncated to the first limit entries (errors pass through with
the Retrieve prefix). -/
theorem retrieve_ignores_reranker
    (search : String → Nat → Except String (List SearchResult))
    (rr1 rr2 : Option (String → List SearchResult → Except String (List SearchResult)))
    (query : String) (limit : Nat) :
    retrieveModel search rr1 query limit = retrieveModel search rr2 query limit ∧
      (∀ results, search query (limit * 2) = Except.ok results →
        retrieveModel search rr1 query limit =
          Except.ok (if limit < results.length then results.take limit else results)) ∧
      (∀ e, search query (limit * 2) = Except.error e →
        retrieveModel search rr1 query limit =
          Except.error ("failed to search index: " ++ e)) := by
  refine ⟨?_, ?_, ?_⟩
  · cases h : search query (limit * 2) <;> simp [retrieveModel, h]
  · intro results h
    simp [retrieveModel, h]
  · intro e h
    simp [retrieveModel, h]

/-- Go slice expression results[:limit] for an int limit: defined iff
0 ≤ limit ≤ len(results); out of that range it panics (none). -/
def goSliceTo (results : List SearchResult) (limit : Int) : Option (List SearchResult) :=
  if 0 ≤ limit ∧ limit ≤ (results.length : Int) then some (results.take limit.toNat)
  else none

/-- Truncation step at the end of Retrieve, with Go's int limit kept signed:
the slice results[:limit] is taken only when len(results) > limit. -/
def retrieveTruncate (results : List SearchResult) (limit : Int) : Option (List SearchResult) :=
  if limit < (results.length : Int) then goSliceTo results limit else some results

/-- Limit normalization of handleSearch (internal/server): a zero limit
defaults to 10, values above 100 are capped at 100, and every other value —
negative values included — is forwarded unchanged. -/
def handleSearchLimit (reqLimit : Int) : Int :=
  let l1 := if reqLimit = 0 then 10 else reqLimit
  if 100 < l1 then 100 else l1

/-- C10: under the precondition limit ≥ 0 the truncation slice is in bounds,
so Retrieve returns normally with at most limit results whenever the search
succeeds; handleSearch defaults a zero limit to 10 and caps limits above 100
but forwards negative limits unchanged. -/
theorem retrieve_slice_safe (limit : Int) (h : 0 ≤ limit) :
    (∀ results : List SearchResult,
      ∃ out, retrieveTruncate results limit = some out ∧ (out.length : Int) ≤ limit) ∧
      handleSearchLimit 0 = 10 ∧
      (∀ n : Int, 100 < n → handleSearchLimit n = 100) ∧
      (∀ n : Int, n < 0 → handleSearchLimit n = n) := by
  refine ⟨?_, by simp [handleSearchLimit], ?_, ?_⟩
  · intro results
    by_cases hgt : limit < (results.length : Int)
    · refine ⟨results.take limit.toNat, ?_, ?_⟩
      · simp [retrieveTruncate, goSliceTo, hgt, h, le_of_lt hgt]
      · simp only [List.length_take]
        have : (limit.toNat : Int) = limit := Int.toNat_of_nonneg h
        omega
    · refine ⟨results, ?_, ?_⟩
      · simp [retrieveTruncate, hgt]
      · omega
  · intro n hn
    have hn0 : n ≠ 0 := by omega
    simp [handleSearchLimit, hn0, hn]
  · intro n hn
    have hn0 : n ≠ 0 := by omega
    have hn100 : ¬ (100 < n) := by omega
    simp [handleSearchLimit, hn0, hn100]

theorem retrieve_slice_safe_witness :
    (0 : Int) ≤ 2 ∧
      ((∀ results : List SearchResult,
        ∃ out, retrieveTruncate results 2 = some out ∧ (out.length : Int) ≤ 2) ∧
        handleSearchLimit 0 = 10 ∧
        (∀ n : Int, 100 < n → handleSearchLimit n = 100) ∧
        (∀ n : Int, n < 0 → handleSearchLimit n = n)) :=
  ⟨by decide, retrieve_slice_safe 2 (by decide)⟩

/-- Truncation toward zero of a rational, as Go's float64-to-int64 conversion
used by time.Duration(1.0/rate). -/
def qtrunc (q : ℚ) : Int := if 0 ≤ q then Int.floor q else -(Int.floor (-q))

/-- Interval, in whole seconds, of the per-domain ticker created by rateLimit
(internal/crawler): none when the configured rate is ≤ 0 (the method returns
immediately, a no-op); otherwise time.Duration(1.0/rate) truncates 1/rate to
a whole number, time.Second scales it to seconds, and a resulting interval
≤ 0 falls back to one second. -/
def rateLimitIntervalSeconds (rate : ℚ) : Option ℚ :=
  if rate ≤ 0 then none
  else
    let interval : Int := qtrunc (1 / rate)
    some (if interval ≤ 0 then 1 else (interval : ℚ))

/-- C6 counterexample: with rate 2 the enforced interval is 1 second (the
truncated value 0 falls back to one second), not the claimed 1/2 second. -/
theorem rateLimit_interval_not_inverse :
    (0 : ℚ) < 2 ∧ rateLimitIntervalSeconds 2 = some 1 ∧
      ¬ rateLimitIntervalSeconds 2 = some (1 / 2) := by
  refine ⟨by norm_num, ?_, ?_⟩ <;> norm_num [rateLimitIntervalSeconds, qtrunc]

/-- C6 as amended: a rate ≤ 0 disables the limiter entirely, and for a
positive rate the ticker interval is 1/rate truncated to whole seconds (one
second when that truncation is ≤ 0); it equals exactly 1/rate if and only if
1/rate is an integer number of seconds ≥ 1. -/
theorem rateLimit_interval_truncated (rate : ℚ) (h : 0 < rate) :
    rateLimitIntervalSeconds rate =
      some (if qtrunc (1 / rate) ≤ 0 then 1 else (qtrunc (1 / rate) : ℚ)) ∧
      (rateLimitIntervalSeconds rate = some (1 / rate) ↔
        ∃ n : Int, 1 ≤ n ∧ 1 / rate = (n : ℚ)) ∧
      (∀ r : ℚ, r ≤ 0 → rateLimitIntervalSeconds r = none) := by
  have hq : 0 < 1 / rate := by positivity
  have hqt : qtrunc (1 / rate) = Int.floor (1 / rate) := by
    unfold qtrunc
    rw [if_pos (le_of_lt hq)]
  have heq : rateLimitIntervalSeconds rate =
      some (if qtrunc (1 / rate) ≤ 0 then 1 else (qtrunc (1 / rate) : ℚ)) := by
    simp [rateLimitIntervalSeconds, not_le.mpr h]
  refine ⟨heq, ?_, ?_⟩
  · constructor
    · intro hsome
      rw [heq] at hsome
      have hval : (if qtrunc (1 / rate) ≤ 0 then (1 : ℚ) else (qtrunc (1 / rate) : ℚ)) =
          1 / rate := by exact Option.some.inj hsome
      by_cases hf : qtrunc (1 / rate) ≤ 0
      · rw [if_pos hf] at hval
        exfalso
        rw [hqt] at hf
        have : Int.floor (1 / rate) = 1 := by rw [← hval]; norm_num
        omega
      · rw [if_neg hf] at hval
        exact ⟨qtrunc (1 / rate), by omega, hval.symm⟩
    · rintro ⟨n, hn1, hn⟩
      rw [heq, hqt, hn]
      have hfl : Int.floor ((n : ℚ)) = n := Int.floor_intCast n
      rw [hfl, if_neg (by omega)]
  · intro r hr
    simp [rateLimitIntervalSeconds, hr]

theorem rateLimit_interval_truncated_witness :
    (0 : ℚ) < 1 / 2 ∧
      (rateLimitIntervalSeconds (1 / 2) =
        some (if qtrunc (1 / (1 / 2)) ≤ 0 then 1 else (qtrunc (1 / (1 / 2)) : ℚ)) ∧
        (rateLimitIntervalSeconds (1 / 2) = some (1 / (1 / 2)) ↔
          ∃ n : Int, 1 ≤ n ∧ 1 / (1 / 2) = (n : ℚ)) ∧
        (∀ r : ℚ, r ≤ 0 → rateLimitIntervalSeconds r = none)) :=
  ⟨by norm_num, rateLimit_interval_truncated (1 / 2) (by norm_num)⟩

/-- Outcome of the response guards at the top of fetchAndParse
(internal/crawler). -/
inductive FetchGate where
  | statusRejected (code : Nat)
  | contentTypeRejected (contentType : String)
  | accepted
  deriving DecidableEq, Repr

/-- Status and content-type guards of fetchAndParse: the response is rejected
unless StatusCode equals http.StatusOK (200) exactly; a 200 response is then
rejected unless its Content-Type contains "text/html". -/
def fetchGate (statusCode : Nat) (contentType : String) : FetchGate :=
  if statusCode ≠ 200 then FetchGate.statusRejected statusCode
  else if "text/html".data <:+: contentType.data then FetchGate.accepted
  else FetchGate.contentTypeRejected contentType

/-- C9 counterexample: 201 Created is a 2xx status, yet fetchAndParse rejects
it at the status check. -/
theorem fetchGate_rejects_2xx_201 :
    (200 ≤ 201 ∧ 201 < 300) ∧
      fetchGate 201 "text/html" = FetchGate.statusRejected 201 := by
  exact ⟨by omega, rfl⟩

/-- C9 as amended: the status check of fetchAndParse rejects a response if and
only if its status code differs from 200 — not merely outside 2xx — and a
200 response always proceeds past the status check to the content-type
check. -/
theorem fetchGate_status_only_200 (statusCode : Nat) (contentType : String) :
    (fetchGate statusCode contentType = FetchGate.statusRejected statusCode ↔
      statusCode ≠ 200) ∧
      (statusCode = 200 →
        fetchGate statusCode contentType =
          (if "text/html".data <:+: contentType.data then FetchGate.accepted
            else FetchGate.contentTypeRejected contentType)) := by
  constructor
  · constructor
    · intro hgate hs
      rw [hs] at hgate
      simp only [fetchGate, if_neg (by omega : ¬ (200 : Nat) ≠ 200)] at hgate
      by_cases hct : "text/html".data <:+: contentType.data
      · rw [if_pos hct] at hgate
        exact FetchGate.noConfusion hgate
      · rw [if_neg hct] at hgate
        exact FetchGate.noConfusion hgate
    · intro hs
      simp [fetchGate, hs]
  · intro hs
    simp [fetchGate, hs]

/-- CrawlTarget of the crawler frontier: a URL (already a string key) with its
crawl depth. -/
structure CrawlTarget where
  url : String
  depth : Nat
  deriving DecidableEq, Repr

/-- State of the sequentialised crawl loop of internal/crawler: the frontier
channel contents, the visited set, and the targets fetched so far.  Depths
are the non-negative integers of the spec's data model. -/
structure CrawlState where
  queue : List CrawlTarget
  visited : List String
  fetched : List CrawlTarget
  deriving DecidableEq, Repr

/-- One worker iteration of internal/crawler's worker loop: dequeue a target,
skip it when already visited, otherwise mark it visited, skip it when the
robots gate forbids it, otherwise fetch it (the fetch oracle returns none
for a failed fetch, some links for the page's validated outbound links) and,
only when depth < maxDepth, enqueue every link at depth+1. -/
def crawlStep (allowed : String → Bool) (fetchLinks : String → Option (List String))
    (maxDepth : Nat) (s : CrawlState) : CrawlState :=
  match s.queue with
  | [] => s
  | t :: rest =>
    if t.url ∈ s.visited then { s with queue := rest }
    else
      let visited' := t.url :: s.visited
      if allowed t.url then
        match fetchLinks t.url with
        | none => { queue := rest, visited := visited', fetched := s.fetched ++ [t] }
        | some links =>
          { queue := rest ++
              (if t.depth < maxDepth then links.map (fun l => ⟨l, t.depth + 1⟩) else []),
            visited := visited', fetched := s.fetched ++ [t] }
      else { queue := rest, visited := visited', fetched := s.fetched }

/-- Iterated worker steps with explicit fuel. -/
def crawlRun (allowed : String → Bool) (fetchLinks : String → Option (List String))
    (maxDepth : Nat) : Nat → CrawlState → CrawlState
  | 0, s => s
  | fuel + 1, s => crawlRun allowed fetchLinks maxDepth fuel (crawlStep allowed fetchLinks maxDepth s)

/-- Initial crawl state: Crawl seeds the frontier with the start URL at
depth 0. -/
def crawlInit (seedURL : String) : CrawlState :=
  { queue := [⟨seedURL, 0⟩], visited := [], fetched := [] }

/-- Depth invariant: every queued and every fetched target respects
maxDepth. -/
def depthBound (maxDepth : Nat) (s : CrawlState) : Prop :=
  (∀ t ∈ s.queue, t.depth ≤ maxDepth) ∧ (∀ t ∈ s.fetched, t.depth ≤ maxDepth)

theorem crawlStep_depthBound (allowed : String → Bool)
    (fetchLinks : String → Option (List String)) (maxDepth : Nat) (s : CrawlState)
    (h : depthBound maxDepth s) :
    depthBound maxDepth (crawlStep allowed fetchLinks maxDepth s) := by
  obtain ⟨hq, hf⟩ := h
  cases hqs : s.queue with
  | nil => simpa [crawlStep, hqs] using ⟨hq, hf⟩
  | cons t rest =>
    have hqt : ∀ x ∈ rest, x.depth ≤ maxDepth := fun x hx =>
      hq x (by rw [hqs]; exact List.mem_cons_of_mem _ hx)
    have hqd : t.depth ≤ maxDepth := hq t (by rw [hqs]; exact List.mem_cons_self _ _)
    by_cases hv : t.url ∈ s.visited
    · simp only [crawlStep, hqs, if_pos hv]
      exact ⟨hqt, hf⟩
    · by_cases ha : allowed t.url
      · cases hfl : fetchLinks t.url with
        | none =>
          simp only [crawlStep, hqs, if_neg hv, if_pos ha, hfl]
          refine ⟨hqt, ?_⟩
          intro x hx
          rcases List.mem_append.mp hx with hx | hx
          · exact hf x hx
          · rw [List.mem_singleton.mp hx]; exact hqd
        | some links =>
          simp only [crawlStep, hqs, if_neg hv, if_pos ha, hfl]
          refine ⟨?_, ?_⟩
          · intro x hx
            rcases List.mem_append.mp hx with hx | hx
            · exact hqt x hx
            · by_cases hd : t.depth < maxDepth
              · rw [if_pos hd] at hx
                rcases List.mem_map.mp hx with ⟨l, _, rfl⟩
                exact hd
              · rw [if_neg hd] at hx
                simp at hx
          · intro x hx
            rcases List.mem_append.mp hx with hx | hx
            · exact hf x hx
            · rw [List.mem_singleton.mp hx]; exact hqd
      · simp only [crawlStep, hqs, if_neg hv, if_neg ha]
        exact ⟨hqt, hf⟩

theorem crawlRun_depthBound (allowed : String → Bool)
    (fetchLinks : String → Option (List String)) (maxDepth : Nat) (fuel : Nat) :
    ∀ s : CrawlState, depthBound maxDepth s →
      depthBound maxDepth (crawlRun allowed fetchLinks maxDepth fuel s) := by
  induction fuel with
  | zero => intro s h; exact h
  | succ n ih =>
    intro s h
    exact ih _ (crawlStep_depthBound allowed fetchLinks maxDepth s h)

theorem crawlStep_empty_queue (allowed : String → Bool)
    (fetchLinks : String → Option (List String)) (maxDepth : Nat) (s : CrawlState)
    (h : s.queue = []) : crawlStep allowed fetchLinks maxDepth s = s := by
  simp [crawlStep, h]

theorem crawlRun_empty_queue (allowed : String → Bool)
    (fetchLinks : String → Option (List String)) (maxDepth : Nat) (fuel : Nat)
    (s : CrawlState) (h : s.queue = []) :
    crawlRun allowed fetchLinks maxDepth fuel s = s := by
  induction fuel with
  | zero => rfl
  | succ n ih => rw [crawlRun, crawlStep_empty_queue allowed fetchLinks maxDepth s h, ih]

/-- C3: during a crawl from the seed every target ever fetched or queued has
depth ≤ maxDepth; a dequeued target whose depth has reached maxDepth
enqueues nothing (the queue only shrinks to its tail); and with maxDepth = 0
and the seed admitted by the robots gate, exactly the seed page, at depth 0,
is fetched, regardless of how many outbound links any fetch reports. -/
theorem crawl_depth_bound (allowed : String → Bool)
    (fetchLinks : String → Option (List String)) (maxDepth : Nat) (seedURL : String)
    (fuel : Nat) :
    (∀ t ∈ (crawlRun allowed fetchLinks maxDepth fuel (crawlInit seedURL)).fetched,
        t.depth ≤ maxDepth) ∧
      (∀ t ∈ (crawlRun allowed fetchLinks maxDepth fuel (crawlInit seedURL)).queue,
        t.depth ≤ maxDepth) ∧
      (∀ s : CrawlState, ∀ t : CrawlTarget, ∀ rest : List CrawlTarget,
        s.queue = t :: rest → maxDepth ≤ t.depth →
          (crawlStep allowed fetchLinks maxDepth s).queue = rest) ∧
      (maxDepth = 0 → allowed seedURL = true → 1 ≤ fuel →
        (crawlRun allowed fetchLinks maxDepth fuel (crawlInit seedURL)).fetched =
          [⟨seedURL, 0⟩]) := by
  have hinit : depthBound maxDepth (crawlInit seedURL) := by
    constructor
    · intro t ht
      have : t = ⟨seedURL, 0⟩ := by simpa [crawlInit] using ht
      rw [this]; exact Nat.zero_le _
    · intro t ht
      simp [crawlInit] at ht
  have hrun := crawlRun_depthBound allowed fetchLinks maxDepth fuel _ hinit
  refine ⟨hrun.2, hrun.1, ?_, ?_⟩
  · intro s t rest hq hd
    by_cases hv : t.url ∈ s.visited
    · simp [crawlStep, hq, hv]
    · by_cases ha : allowed t.url
      · cases hfl : fetchLinks t.url with
        | none => simp [crawlStep, hq, hv, ha, hfl]
        | some links =>
          simp [crawlStep, hq, hv, ha, hfl, if_neg (by omega : ¬ t.depth < maxDepth)]
      · simp [crawlStep, hq, hv, ha]
  · rintro rfl hseed hfuel
    obtain ⟨fuel', rfl⟩ : ∃ f, fuel = f + 1 := ⟨fuel - 1, by omega⟩
    have hstep : crawlStep allowed fetchLinks 0 (crawlInit seedURL) =
        { queue := [], visited := [seedURL], fetched := [⟨seedURL, 0⟩] } := by
      cases hfl : fetchLinks seedURL with
      | none => simp [crawlStep, crawlInit, hseed, hfl]
      | some links => simp [crawlStep, crawlInit, hseed, hfl]
    rw [crawlRun, hstep, crawlRun_empty_queue allowed fetchLinks 0 fuel' _ rfl]

/-- Phase of a worker with respect to one dequeued URL, following the visited
check of internal/crawler's worker: idle (about to run the read-locked
membership check), claiming (check passed, about to take the write lock and
insert), fetching (insert done, proceeding to fetch the URL), or skipped
(check saw the URL already visited). -/
inductive WorkerPhase where
  | idle
  | claiming
  | fetching
  | skipped
  deriving DecidableEq, Repr

/-- Shared crawl state for the visited-set race model: the visited set and
one phase per worker.  urls lists the URL each worker dequeued. -/
structure RaceState where
  visited : List String
  phases : List WorkerPhase
  deriving DecidableEq, Repr

/-- The read-locked membership check (one atomic critical section): an idle
worker observes the visited set and becomes skipped when its URL is present,
claiming otherwise.  The lock is released before any insert happens. -/
def visitedCheck (urls : List String) (s : RaceState) (i : Nat) : RaceState :=
  match s.phases[i]?, urls[i]? with
  | some WorkerPhase.idle, some u =>
    if u ∈ s.visited then { s with phases := s.phases.set i WorkerPhase.skipped }
    else { s with phases := s.phases.set i WorkerPhase.claiming }
  | _, _ => s

/-- The separately write-locked insert (a second atomic critical section): a
claiming worker adds its URL to the visited set and proceeds to fetch. -/
def visitedInsert (urls : List String) (s : RaceState) (i : Nat) : RaceState :=
  match s.phases[i]?, urls[i]? with
  | some WorkerPhase.claiming, some u =>
    { visited := u :: s.visited, phases := s.phases.set i WorkerPhase.fetching }
  | _, _ => s

/-- C4: because the membership check and the insert are two separate critical
sections, two workers holding the same URL can both pass the check before
either inserts, and then both fetch it — the URL is fetched twice; a URL is
protected only once some insert has completed: a check that observes the URL
in the visited set always skips.  The first conjunct replays the concrete
interleaving check(0), check(1), insert(0), insert(1) on the shared URL
"u". -/
theorem visited_race_double_fetch :
    (visitedInsert ["u", "u"]
        (visitedInsert ["u", "u"]
          (visitedCheck ["u", "u"]
            (visitedCheck ["u", "u"]
              { visited := [], phases := [WorkerPhase.idle, WorkerPhase.idle] } 0) 1) 0) 1).phases =
      [WorkerPhase.fetching, WorkerPhase.fetching] ∧
      (visitedCheck ["u"] { visited := ["u"], phases := [WorkerPhase.idle] } 0).phases =
        [WorkerPhase.skipped] := by
  exact ⟨rfl, rfl⟩

/-- Check of a worker whose URL is already visited always skips: the guarantee
the code does provide, once an insert has completed before the check. -/
theorem visitedCheck_after_insert_skips (urls : List String) (s : RaceState) (i : Nat)
    (u : String) (hu : urls[i]? = some u) (hp : s.phases[i]? = some WorkerPhase.idle)
    (hv : u ∈ s.visited) :
    (visitedCheck urls s i).phases = s.phases.set i WorkerPhase.skipped := by
  simp [visitedCheck, hu, hp, hv]

theorem visitedCheck_after_insert_skips_witness :
    (["u"][0]? = some "u") ∧
      ((⟨["u"], [WorkerPhase.idle]⟩ : RaceState).phases[0]? = some WorkerPhase.idle) ∧
      ("u" ∈ (⟨["u"], [WorkerPhase.idle]⟩ : RaceState).visited) ∧
      (visitedCheck ["u"] ⟨["u"], [WorkerPhase.idle]⟩ 0).phases =
        (⟨["u"], [WorkerPhase.idle]⟩ : RaceState).phases.set 0 WorkerPhase.skipped :=
  ⟨rfl, rfl, by decide,
    visitedCheck_after_insert_skips ["u"] ⟨["u"], [WorkerPhase.idle]⟩ 0 "u" rfl rfl (by decide)⟩

/-- Robots of internal/crawler's robots cache: the user agent the policy was
parsed for, the accumulated Disallow path prefixes, and the crawl delay as a
time.Duration in nanoseconds. -/
structure Robots where
  userAgent : String
  disallow : List String
  crawlDelay : Int
  deriving DecidableEq, Repr

/-- Permissive policy built on the failure paths of GetRobots: empty disallow
list, zero delay. -/
def permissiveRobots (userAgent : String) : Robots :=
  { userAgent := userAgent, disallow := [], crawlDelay := 0 }

/-- One line of parseRobotsTxt's scanner loop.  State: the current User-agent
section name, whether that section applies to us, and the policy so far. -/
def parseRobotsLine (userAgent : String) (st : String × Bool × Robots) (rawLine : String) :
    String × Bool × Robots :=
  let line := rawLine.trim
  if line == "" || line.startsWith "#" then st
  else if line.toLower.startsWith "user-agent:" then
    let cu := (line.drop 11).trim
    (cu, cu == "*" || cu == userAgent, st.2.2)
  else if !st.2.1 then st
  else if line.toLower.startsWith "disallow:" then
    let path := (line.drop 9).trim
    if path ≠ "" then (st.1, st.2.1, { st.2.2 with disallow := st.2.2.disallow ++ [path] })
    else st
  else if line.toLower.startsWith "crawl-delay:" then
    match ((line.drop 12).trim).toInt? with
    | some delay => (st.1, st.2.1, { st.2.2 with crawlDelay := delay * 1000000000 })
    | none => st
  else st

/-- parseRobotsTxt of internal/crawler: scan the body line by line, tracking
the applicable User-agent section and accumulating Disallow prefixes and the
last Crawl-delay. -/
def parseRobotsTxt (body userAgent : String) : Robots :=
  ((body.splitOn "\n").foldl (parseRobotsLine userAgent)
    ("", false, permissiveRobots userAgent)).2.2

/-- CanCrawl of Robots: a path is disallowed iff some accumulated Disallow
entry is a literal prefix of it. -/
def robotsCanCrawl (r : Robots) (urlPath : String) : Bool :=
  r.disallow.all (fun p => !(urlPath.startsWith p))

/-- GetRobots of internal/crawler's RobotsCache, with the network modelled by
a fetch outcome (none: the HTTP GET failed; some body: a response body —
any status — to parse).  Returns the policy, the updated cache, and whether
a network fetch was performed.  On a cache hit nothing is fetched; on fetch
failure the permissive policy is returned WITHOUT being cached; only a
successfully fetched and parsed policy is stored in the cache. -/
def getRobots (cache : List (String × Robots)) (domain userAgent : String)
    (fetch : Option String) : Robots × List (String × Robots) × Bool :=
  match cache.lookup domain with
  | some robots => (robots, cache, false)
  | none =>
    match fetch with
    | none => (permissiveRobots userAgent, cache, true)
    | some body =>
      let robots := parseRobotsTxt body userAgent
      (robots, (domain, robots) :: cache, true)

/-- C7 counterexample: a domain whose robots.txt fetch fails is queried again
on the next access — the permissive policy produced on the failure path is
not cached, so the domain is not "requested at most once". -/
theorem getRobots_failure_not_cached :
    (getRobots [] "d" "ua" none).2.2 = true ∧
      (getRobots [] "d" "ua" none).2.1 = [] ∧
      (getRobots (getRobots [] "d" "ua" none).2.1 "d" "ua" none).2.2 = true := by
  exact ⟨rfl, rfl, rfl⟩

/-- C7 as amended: any fetch failure yields the permissive policy (empty
disallow list, zero delay, blocking nothing) so crawling proceeds, but that
permissive policy is not cached — the domain is fetched again on every
access until a fetch succeeds; a cached policy is returned without any
fetch, and a successful fetch stores its parsed policy in the cache. -/
theorem getRobots_permissive_and_cache (cache : List (String × Robots))
    (domain userAgent : String) (fetch : Option String) :
    (cache.lookup domain = none → fetch = none →
      getRobots cache domain userAgent fetch = (permissiveRobots userAgent, cache, true) ∧
        (permissiveRobots userAgent).disallow = [] ∧
        (permissiveRobots userAgent).crawlDelay = 0 ∧
        (∀ p : String, robotsCanCrawl (permissiveRobots userAgent) p = true)) ∧
      (∀ r : Robots, cache.lookup domain = some r →
        getRobots cache domain userAgent fetch = (r, cache, false)) ∧
      (∀ body : String, cache.lookup domain = none → fetch = some body →
        getRobots cache domain userAgent fetch =
          (parseRobotsTxt body userAgent,
            (domain, parseRobotsTxt body userAgent) :: cache, true) ∧
          ((domain, parseRobotsTxt body userAgent) :: cache).lookup domain =
            some (parseRobotsTxt body userAgent)) := by
  refine ⟨?_, ?_, ?_⟩
  · intro hmiss hfail
    refine ⟨by simp [getRobots, hmiss, hfail], rfl, rfl, ?_⟩
    intro p
    simp [robotsCanCrawl, permissiveRobots]
  · intro r hhit
    simp [getRobots, hhit]
  · intro body hmiss hbody
    refine ⟨by simp [getRobots, hmiss, hbody], ?_⟩
    simp [List.lookup]

/-- ToLower of strings (strings.ToLower restricted to the ASCII range, which
is all a normalized host uses): each character through Char.toLower. -/
def strLower (s : String) : String := String.mk (s.data.map Char.toLower)

theorem charToLower_idem (c : Char) : c.toLower.toLower = c.toLower := by
  unfold Char.toLower
  by_cases h : c.toNat ≥ 65 ∧ c.toNat ≤ 90
  · rw [if_pos h]
    have hval : (Char.ofNat (c.toNat + 32)).toNat = c.toNat + 32 := by
      rw [Char.ofNat, dif_pos (Or.inl (by omega))]
      rfl
    rw [if_neg (by rw [hval]; omega)]
  · rw [if_neg h, if_neg h]

theorem strLower_idem (s : String) : strLower (strLower s) = strLower s := by
  unfold strLower
  refine congrArg String.mk ?_
  rw [List.map_map]
  exact List.map_congr_left (fun c _ => charToLower_idem c)

theorem strLower_fixed_chars (s : String) :
    ∀ c ∈ (strLower s).data, c.toLower = c := by
  intro c hc
  rcases List.mem_map.mp hc with ⟨c0, _, rfl⟩
  exact charToLower_idem c0

theorem strLower_eq_self (s : String) (h : ∀ c ∈ s.data, c.toLower = c) :
    strLower s = s := by
  cases s with
  | mk data =>
    refine congrArg String.mk ?_
    rw [List.map_congr_left h]
    exact List.map_id data

/-- Last-colon split used by net/url's splitHostPort: some (before, after)
exactly when the list contains a colon, splitting at the last one. -/
def splitLastColon : List Char → Option (List Char × List Char)
  | [] => none
  | c :: rest =>
    match splitLastColon rest with
    | some (pre, post) => some (c :: pre, post)
    | none => if c = ':' then some ([], rest) else none

theorem splitLastColon_pre_mem (cs : List Char) (pre post : List Char)
    (h : splitLastColon cs = some (pre, post)) : ∀ c ∈ pre, c ∈ cs := by
  induction cs generalizing pre post with
  | nil => simp [splitLastColon] at h
  | cons c0 rest ih =>
    intro c hc
    rw [splitLastColon] at h
    cases hr : splitLastColon rest with
    | some p =>
      obtain ⟨p1, p2⟩ := p
      rw [hr] at h
      simp only [Option.some.injEq, Prod.mk.injEq] at h
      obtain ⟨hpre, _⟩ := h
      rw [← hpre] at hc
      rcases List.mem_cons.mp hc with rfl | hc
      · exact List.mem_cons_self _ _
      · exact List.mem_cons_of_mem _ (ih p1 p2 hr c hc)
    | none =>
      rw [hr] at h
      by_cases hcolon : c0 = ':'
      · rw [if_pos hcolon] at h
        simp only [Option.some.injEq, Prod.mk.injEq] at h
        obtain ⟨hpre, _⟩ := h
        rw [← hpre] at hc
        simp at hc
      · rw [if_neg hcolon] at h
        simp at h

/-- splitHostPort of net/url (IPv6 bracket stripping elided, irrelevant to
the claims): the part after the last colon is the port when all of it is
digits (an empty port is accepted), else the host is returned whole with an
empty port. -/
def goSplitHostPort (host : String) : String × String :=
  match splitLastColon host.data with
  | some (pre, post) =>
    if post.all Char.isDigit then (String.mk pre, String.mk post) else (host, "")
  | none => (host, "")

/-- Hostname() of net/url: the host with any valid port removed. -/
def goHostname (host : String) : String := (goSplitHostPort host).1

/-- Port() of net/url: the digits after the last colon, or "". -/
def goPort (host : String) : String := (goSplitHostPort host).2

theorem goHostname_chars (host : String) :
    ∀ c ∈ (goHostname host).data, c ∈ host.data := by
  intro c hc
  unfold goHostname goSplitHostPort at hc
  split at hc
  next pre post hs =>
    split at hc
    · exact splitLastColon_pre_mem host.data pre post hs c hc
    · exact hc
  next => exact hc

theorem strLower_goHostname (s : String) :
    strLower (goHostname (strLower s)) = goHostname (strLower s) :=
  strLower_eq_self _ (fun c hc => strLower_fixed_chars s c (goHostname_chars _ c hc))

/-- Default-port stripping of Normalize (parser.go lines 200-205): the host
becomes Hostname() when the (already forced) scheme is https with port 443,
or http with port 80. -/
def stripDefaultPort (scheme host : String) : String :=
  if scheme = "https" ∧ goPort host = "443" then goHostname host
  else if scheme = "http" ∧ goPort host = "80" then goHostname host
  else host

theorem strLower_stripDefaultPort (scheme s : String) :
    strLower (stripDefaultPort scheme (strLower s)) =
      stripDefaultPort scheme (strLower s) := by
  unfold stripDefaultPort
  split_ifs
  · exact strLower_goHostname s
  · exact strLower_goHostname s
  · exact strLower_idem s

theorem stripDefaultPort_idem (scheme host : String) (hs : scheme ≠ "http")
    (hp : goPort (goHostname host) ≠ "443") :
    stripDefaultPort scheme (stripDefaultPort scheme host) =
      stripDefaultPort scheme host := by
  by_cases c1 : scheme = "https" ∧ goPort host = "443"
  · have hinner : stripDefaultPort scheme host = goHostname host := by
      rw [stripDefaultPort, if_pos c1]
    rw [hinner, stripDefaultPort, if_neg (fun h => hp h.2),
      if_neg (fun h => hs h.1)]
  · by_cases c2 : scheme = "http" ∧ goPort host = "80"
    · exact absurd c2.1 hs
    · have hinner : stripDefaultPort scheme host = host := by
        rw [stripDefaultPort, if_neg c1, if_neg c2]
      rw [hinner, hinner]

/-- TrimSuffix(path, "/") of Normalize: remove one trailing slash when
present. -/
def trimSuffixSlash (s : String) : String :=
  if s.data.getLast? = some '/' then String.mk s.data.dropLast else s

/-- Path step of Normalize (parser.go lines 207-211): strip one trailing
slash, then restore "/" when the path became empty. -/
def pathNormalize (path : String) : String :=
  let t := trimSuffixSlash path
  if t = "" then "/" else t

theorem pathNormalize_root : pathNormalize "/" = "/" := by decide

theorem pathNormalize_fix (p : String) (hlast : p.data.getLast? ≠ some '/')
    (hne : p ≠ "") : pathNormalize p = p := by
  have ht : trimSuffixSlash p = p := by rw [trimSuffixSlash, if_neg hlast]
  show (if trimSuffixSlash p = "" then ("/" : String) else trimSuffixSlash p) = p
  rw [ht, if_neg hne]

theorem pathNormalize_idem (s : String) (h : ¬ (['/', '/'] <:+ s.data)) :
    pathNormalize (pathNormalize s) = pathNormalize s := by
  by_cases hsl : s.data.getLast? = some '/'
  · have ht : trimSuffixSlash s = String.mk s.data.dropLast := by
      rw [trimSuffixSlash, if_pos hsl]
    by_cases hte : String.mk s.data.dropLast = ""
    · have hp : pathNormalize s = "/" := by
        show (if trimSuffixSlash s = "" then ("/" : String) else trimSuffixSlash s) = "/"
        rw [ht, if_pos hte]
      rw [hp, pathNormalize_root]
    · have hp : pathNormalize s = String.mk s.data.dropLast := by
        show (if trimSuffixSlash s = "" then ("/" : String) else trimSuffixSlash s) =
          String.mk s.data.dropLast
        rw [ht, if_neg hte]
      rw [hp]
      refine pathNormalize_fix _ ?_ hte
      intro hd2
      apply h
      obtain ⟨ys, hys⟩ := List.getLast?_eq_some_iff.mp hsl
      have hdl : s.data.dropLast = ys := by rw [hys]; simp
      have hd2' : ys.getLast? = some '/' := by
        rw [← hdl]
        exact hd2
      obtain ⟨zs, hzs⟩ := List.getLast?_eq_some_iff.mp hd2'
      refine ⟨zs, ?_⟩
      rw [hys, hzs]
      simp
  · by_cases hne : s = ""
    · subst hne
      decide
    · have hp : pathNormalize s = s := pathNormalize_fix s hsl hne
      rw [hp, hp]

/-- Scheme step of Normalize: http is forced to https. -/
def forceHTTPS (scheme : String) : String :=
  if scheme = "http" then "https" else scheme

theorem forceHTTPS_idem (s : String) : forceHTTPS (forceHTTPS s) = forceHTTPS s := by
  by_cases h : s = "http"
  · subst h; rfl
  · simp [forceHTTPS, h]

theorem forceHTTPS_ne_http (s : String) : forceHTTPS s ≠ "http" := by
  by_cases h : s = "http"
  · subst h; decide
  · simp [forceHTTPS, h]

/-- Key ordering used by url.Values.Encode: query parameters sorted by key
(the stable insertion keeps equal keys' values in their original order). -/
def queryLE (p q : String × String) : Prop := p.1 ≤ q.1

instance : DecidableRel queryLE := fun p q => inferInstanceAs (Decidable (p.1 ≤ q.1))

instance : IsTotal (String × String) queryLE := ⟨fun a b => le_total a.1 b.1⟩

instance : IsTrans (String × String) queryLE := ⟨fun _ _ _ h1 h2 => le_trans h1 h2⟩

theorem sortQuery_idem (q : List (String × String)) :
    List.insertionSort queryLE (List.insertionSort queryLE q) =
      List.insertionSort queryLE q :=
  List.Sorted.insertionSort_eq (List.sorted_insertionSort queryLE q)

/-- Parsed URL record of net/url.URL, restricted to the fields Normalize
touches; the query is kept parsed (url.Values round-trip through
percent-encoding elided). -/
structure GoUrl where
  scheme : String
  host : String
  path : String
  query : List (String × String)
  fragment : String
  deriving DecidableEq, Repr

/-- Host step of Normalize: lowercase, then strip a default port (the scheme
passed in is the already forced one, as in the source's statement order). -/
def normHost (scheme host : String) : String :=
  stripDefaultPort scheme (strLower host)

/-- Normalize of internal/parser on an already parsed absolute URL (base-URL
resolution and the String round-trip through url.Parse elided): force http
to https, lowercase the host, strip the default port, trim one trailing
slash restoring the root path, drop the fragment, sort the query by key. -/
def normalizeUrl (u : GoUrl) : GoUrl :=
  { scheme := forceHTTPS u.scheme,
    host := normHost (forceHTTPS u.scheme) u.host,
    path := pathNormalize u.path,
    query := List.insertionSort queryLE u.query,
    fragment := "" }

theorem normHost_idem (scheme host : String) (hs : scheme ≠ "http")
    (hp : goPort (goHostname (strLower host)) ≠ "443") :
    normHost scheme (normHost scheme host) = normHost scheme host := by
  unfold normHost
  rw [strLower_stripDefaultPort]
  exact stripDefaultPort_idem scheme (strLower host) hs hp

/-- C8 counterexample: Normalize is not idempotent.  TrimSuffix removes only
one trailing slash, so the path "/a//" normalizes to "/a/" and, normalized
again, to "/a". -/
theorem normalizeUrl_not_idempotent :
    normalizeUrl (normalizeUrl ⟨"https", "h", "/a//", [], ""⟩) ≠
      normalizeUrl ⟨"https", "h", "/a//", [], ""⟩ := by decide

/-- C8 as amended: Normalize is idempotent on every URL whose path does not
end in two or more slashes and whose host, once lowercased and stripped of
one default port, does not expose another ":443" port (each application
removes only one trailing "/" and one port suffix; scheme forcing, host
lowercasing, fragment removal and query sorting are stable on their own
output). -/
theorem normalizeUrl_idempotent_amended (u : GoUrl)
    (hpath : ¬ (['/', '/'] <:+ u.path.data))
    (hport : goPort (goHostname (strLower u.host)) ≠ "443") :
    normalizeUrl (normalizeUrl u) = normalizeUrl u := by
  unfold normalizeUrl
  simp only [GoUrl.mk.injEq]
  refine ⟨forceHTTPS_idem u.scheme, ?_, pathNormalize_idem u.path hpath,
    sortQuery_idem u.query, trivial⟩
  rw [forceHTTPS_idem u.scheme]
  exact normHost_idem (forceHTTPS u.scheme) u.host (forceHTTPS_ne_http u.scheme) hport

theorem normalizeUrl_idempotent_amended_witness :
    ¬ (['/', '/'] <:+ ("/a/" : String).data) ∧
      goPort (goHostname (strLower "Example.com:443")) ≠ "443" ∧
      normalizeUrl (normalizeUrl ⟨"http", "Example.com:443", "/a/", [("b", "2"), ("a", "1")], "frag"⟩) =
        normalizeUrl ⟨"http", "Example.com:443", "/a/", [("b", "2"), ("a", "1")], "frag"⟩ :=
  ⟨by decide, by decide,
    normalizeUrl_idempotent_amended ⟨"http", "Example.com:443", "/a/", [("b", "2"), ("a", "1")], "frag"⟩
      (by decide) (by decide)⟩
